import Mathlib

/-!
Shallow embedding of `src/Net/predutils.py` (pseudo-label generation and
refinement pipeline): `spatial_correction`, the label-building branch of
`pseudo_labels`, `labels_by_percentage` and `labels_by_neighborhood`.

Modelling conventions: numpy float distances and thresholds become `ℚ`;
Python `int` parameters become `ℤ` (or `ℕ` where the code only ever sees
non-negative values); a 2-dim numpy array of labels becomes a function
`ℕ → ℕ → α` together with its dimensions `H W`; flat arrays become lists;
functions that can `raise` return `Except String`.
-/

/-- Categorical pixel labels (the `config.CHANGED_LABEL`,
`config.UNCHANGED_LABEL`, `config.UNKNOWN_LABEL` constants of the code). -/
inductive Label where
  | CHANGED
  | UNCHANGED
  | UNKNOWN
deriving DecidableEq, Repr

/-- The clipped square window read by `spatial_correction` at pixel `(r, c)`:
rows `upper_x = r - (radius - 1)` (ℕ-subtraction models `max(0, ...)`) up to
`lower_x = min H (r + radius)` exclusive, columns analogously, flattened in
row-major (`ravel`) order.  This is the slice
`prediction[upper_x:lower_x, upper_y:lower_y].ravel()` of the code. -/
def windowList {α : Type} (H W : ℕ) (p : ℕ → ℕ → α) (radius r c : ℕ) : List α :=
  (List.range' (r - (radius - 1)) (min H (r + radius) - (r - (radius - 1)))).flatMap
    fun i => (List.range' (c - (radius - 1)) (min W (c + radius) - (c - (radius - 1)))).map
      fun j => p i j

/-- `Counter(w).most_common()`: the distinct values of `w` paired with their
multiplicities, sorted by descending count (a stable insertion sort here;
Python sorts stably by first-encounter order on ties, and no caller of the
embedding depends on the tie order). -/
def mostCommon {α : Type} [DecidableEq α] (w : List α) : List (α × ℕ) :=
  (w.dedup.map fun l => (l, w.count l)).insertionSort fun a b => b.2 ≤ a.2

/-- The per-pixel body of `spatial_correction` (lines 50-55): if the two top
entries of `most_common` tie, keep the original label, otherwise take the most
common value.  An empty window (impossible for `radius ≥ 1` at a valid pixel;
the Python code would raise `IndexError`) is totalized to the original label. -/
def correct_cell {α : Type} [DecidableEq α] (w : List α) (orig : α) : α :=
  match mostCommon w with
  | [] => orig
  | [(l, _)] => l
  | (l1, n1) :: (_, n2) :: _ => if n1 = n2 then orig else l1

/-- `spatial_correction(prediction, radius)` as a function on pixel
coordinates; the array written by the code is its restriction to
`r < H`, `c < W`.  Each output pixel is computed from the ORIGINAL map only
(the code writes into a fresh `corrected` array). -/
def spatial_correction {α : Type} [DecidableEq α] (H W : ℕ) (p : ℕ → ℕ → α)
    (radius : ℕ) : ℕ → ℕ → α :=
  fun r c => correct_cell (windowList H W p radius r c) (p r c)

/-- The label branch of `pseudo_labels` (line 114) and of the callers at
lines 186-187 and 269:
`np.where(distances > threshold, CHANGED_LABEL, UNCHANGED_LABEL)`. -/
def pseudo_labels_map (distances : List ℚ) (threshold : ℚ) : List Label :=
  distances.map fun d => if threshold < d then Label.CHANGED else Label.UNCHANGED

/-- The pickled `pseudo_dict` bundle: distances, Otsu threshold, image shape. -/
structure PseudoRecord where
  distances : List ℚ
  threshold : ℚ
  shape : ℕ × ℕ

/-- `int(q * n)` for the non-negative products of `labels_by_percentage`:
the floor of the exact rational product `q * n`, with the product written as
the explicit fraction `(q.num * n) / q.den` so that the definition evaluates
by kernel reduction (see `intTruncMul_eq_floor`). -/
def intTruncMul (q : ℚ) (n : ℕ) : ℕ :=
  (mkRat (q.num * n) q.den).floor.toNat

/-- The `nmatrix` of `labels_by_percentage` (lines 142-151): pack each
not-changed distance with its flat position (`np.where` yields ascending
positions, `np.c_` pairs value with position) and sort ascending by distance
(`argsort`; numpy's default sort is not stable on ties, the embedding fixes a
deterministic stable order consistent with the key). -/
def nmatrixOf (pseudo : PseudoRecord) : List (ℚ × ℕ) :=
  ((pseudo.distances.enum.filter fun di => decide (di.2 ≤ pseudo.threshold)).map
    fun di => (di.2, di.1)).insertionSort fun a b => a.1 ≤ b.1

/-- The `cmatrix` of `labels_by_percentage` (lines 143-152): the changed
distances with their flat positions, sorted descending by distance
(`(-cmatrix)[:, 0].argsort()`). -/
def cmatrixOf (pseudo : PseudoRecord) : List (ℚ × ℕ) :=
  ((pseudo.distances.enum.filter fun di => decide (pseudo.threshold < di.2)).map
    fun di => (di.2, di.1)).insertionSort fun a b => b.1 ≤ a.1

/-- `labels_by_percentage(pseudo_dict, percentage)` (lines 118-163).
`np.where` index order is ascending, `argsort` sorts ascending by distance for
the unchanged class and descending for the changed class, `int(...)`
truncation of the non-negative products is floor followed by `toNat`. -/
def labels_by_percentage (pseudo : PseudoRecord) (percentage : ℚ) :
    Except String (List ℕ × List Label) :=
  if percentage ≤ 0 ∨ 1 < percentage then
    Except.error "ERROR: percentage must be a float in ]0,1]"
  else
    let nmatrix := nmatrixOf pseudo
    let cmatrix := cmatrixOf pseudo
    let nk := intTruncMul percentage nmatrix.length
    let ck := intTruncMul percentage cmatrix.length
    let labels := List.replicate nk Label.UNCHANGED ++ List.replicate ck Label.CHANGED
    let selected := (nmatrix.take nk).map Prod.snd ++ (cmatrix.take ck).map Prod.snd
    Except.ok (selected, labels)

/-- The selection loop of `labels_by_neighborhood` (lines 185-205).  Note
that line 188 calls `spatial_correction` WITHOUT forwarding `radius`, so the
smoothing always runs with the default radius 3, while the unanimity windows
use the given radius.  `np.reshape` is row-major, so cell `(r, c)` of the
reshaped map is flat element `r * W + c`.  The double row-major loop appends
`(row * max_c + col, corrected[row, col])` for every pixel whose window
`Counter` over the corrected map has exactly one distinct key
(`len(counts) == 1`). -/
def neighborhoodPairs (pseudo : PseudoRecord) (radius : ℤ) : List (ℕ × Label) :=
  let H := pseudo.shape.1
  let W := pseudo.shape.2
  let lab : ℕ → ℕ → Label := fun r c =>
    if pseudo.threshold < pseudo.distances.getD (r * W + c) 0 then Label.CHANGED
    else Label.UNCHANGED
  let corrected := spatial_correction H W lab 3
  (List.range H).flatMap fun row =>
    (List.range W).filterMap fun col =>
      if (windowList H W corrected radius.toNat row col).dedup.length = 1 then
        some (row * W + col, corrected row col)
      else none

/-- `labels_by_neighborhood(pseudo_dict, radius)` (lines 166-206): validate
the radius, then return the selected flat positions and their corrected
labels. -/
def labels_by_neighborhood (pseudo : PseudoRecord) (radius : ℤ) :
    Except String (List ℕ × List Label) :=
  if radius < 1 then
    Except.error "ERROR: radius must be a int >=1"
  else
    Except.ok ((neighborhoodPairs pseudo radius).map Prod.fst,
      (neighborhoodPairs pseudo radius).map Prod.snd)

/-- Spec §4.4 pipeline, written from the spec's words and parametrized by the
radius handed to the smoothing step: build the label map from
distances+threshold (§4.2 `buildLabels`), reshape to `record.shape`, smooth it
with `SpatialCorrector` at radius `corrRadius`, then keep, in row-major scan
order, exactly the pixels whose clipped window in the smoothed map is
unanimous (every window cell equals the smoothed label of the pixel), each
paired with its smoothed label. -/
def selectByNeighborhood_pipeline (corrRadius : ℕ) (pseudo : PseudoRecord)
    (radius : ℕ) : List ℕ × List Label :=
  let H := pseudo.shape.1
  let W := pseudo.shape.2
  let labGrid : ℕ → ℕ → Label := fun r c =>
    (pseudo_labels_map pseudo.distances pseudo.threshold).getD (r * W + c) Label.UNCHANGED
  let corrected := spatial_correction H W labGrid corrRadius
  let pick := ((List.range H).flatMap fun r => (List.range W).map fun c => (r, c)).filter
    fun rc => (windowList H W corrected radius rc.1 rc.2).all
      fun x => decide (x = corrected rc.1 rc.2)
  (pick.map fun rc => rc.1 * W + rc.2, pick.map fun rc => corrected rc.1 rc.2)

/-- The claim's reading of `selectByNeighborhood`: the smoothing uses the SAME
radius as the unanimity windows. -/
def selectByNeighborhood_claim (pseudo : PseudoRecord) (radius : ℕ) :
    List ℕ × List Label :=
  selectByNeighborhood_pipeline radius pseudo radius

/-- The amended reading: the smoothing always uses the default radius 3,
whatever radius the unanimity windows use. -/
def selectByNeighborhood_spec (pseudo : PseudoRecord) (radius : ℕ) :
    List ℕ × List Label :=
  selectByNeighborhood_pipeline 3 pseudo radius

/-! ### Lemmas about `mostCommon` and `correct_cell` -/

section SpatialLemmas

variable {α : Type} [DecidableEq α]

theorem mostCommon_perm (w : List α) :
    List.Perm (mostCommon w) (w.dedup.map fun l => (l, w.count l)) :=
  List.perm_insertionSort _ _

theorem mostCommon_pairwise (w : List α) :
    (mostCommon w).Pairwise fun a b => b.2 ≤ a.2 := by
  haveI : IsTotal (α × ℕ) fun a b => b.2 ≤ a.2 := ⟨fun a b => le_total b.2 a.2⟩
  haveI : IsTrans (α × ℕ) fun a b => b.2 ≤ a.2 := ⟨fun a b c hab hbc => le_trans hbc hab⟩
  exact List.sorted_insertionSort _ _

theorem mem_mostCommon {w : List α} {l : α} {n : ℕ} :
    (l, n) ∈ mostCommon w ↔ l ∈ w ∧ n = w.count l := by
  rw [(mostCommon_perm w).mem_iff, List.mem_map]
  constructor
  · rintro ⟨a, ha, heq⟩
    injection heq with h1 h2
    subst h1
    subst h2
    exact ⟨List.mem_dedup.mp ha, rfl⟩
  · rintro ⟨hl, rfl⟩
    exact ⟨l, List.mem_dedup.mpr hl, rfl⟩

theorem mostCommon_map_fst_nodup (w : List α) : ((mostCommon w).map Prod.fst).Nodup := by
  have hperm : List.Perm ((mostCommon w).map Prod.fst)
      ((w.dedup.map fun l => (l, w.count l)).map Prod.fst) := (mostCommon_perm w).map _
  have heq : (w.dedup.map fun l => (l, w.count l)).map Prod.fst = w.dedup := by
    simp [Function.comp_def]
  rw [heq] at hperm
  exact hperm.nodup_iff.mpr (List.nodup_dedup w)

theorem mostCommon_ne_nil {w : List α} (hw : w ≠ []) : mostCommon w ≠ [] := by
  intro h
  have hperm := (mostCommon_perm w).symm
  rw [h] at hperm
  have := List.map_eq_nil_iff.mp hperm.eq_nil
  exact hw ((List.dedup_eq_nil w).mp this)

theorem mostCommon_head_count_max {w : List α} {l : α} {n : ℕ} {rest : List (α × ℕ)}
    (h : mostCommon w = (l, n) :: rest) :
    l ∈ w ∧ n = w.count l ∧ ∀ l2, w.count l2 ≤ n := by
  have hhead : (l, n) ∈ mostCommon w := h ▸ List.mem_cons_self _ _
  obtain ⟨hlw, hn⟩ := mem_mostCommon.mp hhead
  refine ⟨hlw, hn, fun l2 => ?_⟩
  by_cases hl2 : l2 ∈ w
  · have hmem : (l2, w.count l2) ∈ mostCommon w := mem_mostCommon.mpr ⟨hl2, rfl⟩
    rw [h, List.mem_cons] at hmem
    rcases hmem with heq | hrest
    · injection heq with h1 h2
      omega
    · have hpw := mostCommon_pairwise w
      rw [h, List.pairwise_cons] at hpw
      exact hpw.1 _ hrest
  · rw [List.count_eq_zero.mpr hl2]
    exact Nat.zero_le _

/-- The strict-majority branch of `correct_cell`: when `l` is strictly more
frequent in the window than every other label, it is assigned. -/
theorem correct_cell_of_unique_max {w : List α} {orig l : α} (hw : w ≠ [])
    (hmax : ∀ l2, l2 ≠ l → w.count l2 < w.count l) :
    correct_cell w orig = l := by
  obtain ⟨⟨l1, n1⟩, rest, hmc⟩ := List.exists_cons_of_ne_nil (mostCommon_ne_nil hw)
  obtain ⟨hl1w, hn1, hmax1⟩ := mostCommon_head_count_max hmc
  have hl1 : l1 = l := by
    by_contra hne
    have h1 := hmax l1 hne
    have h2 := hmax1 l
    omega
  subst hl1
  match rest, hmc with
  | [], hmc => simp [correct_cell, hmc]
  | (l2, n2) :: rest2, hmc =>
    have hmem2 : (l2, n2) ∈ mostCommon w := hmc ▸ List.mem_cons_of_mem _ (List.mem_cons_self _ _)
    obtain ⟨hl2w, hn2⟩ := mem_mostCommon.mp hmem2
    have hne12 : l2 ≠ l1 := by
      have hnd := mostCommon_map_fst_nodup w
      rw [hmc] at hnd
      simp only [List.map_cons] at hnd
      exact fun h => (List.nodup_cons.mp hnd).1 (h ▸ List.mem_cons_self _ _)
    have hlt : n2 < n1 := by
      have := hmax l2 hne12
      omega
    simp only [correct_cell, hmc]
    rw [if_neg (by omega)]

/-- The tie branch of `correct_cell`: when two distinct labels both attain the
top window frequency, the original label is kept. -/
theorem correct_cell_of_tie {w : List α} {orig l1 l2 : α}
    (hne : l1 ≠ l2) (hmax : ∀ l3, w.count l3 ≤ w.count l1)
    (heq : w.count l2 = w.count l1) :
    correct_cell w orig = orig := by
  by_cases hw : w = []
  · subst hw
    simp [correct_cell, mostCommon]
  · have hl1pos : 0 < w.count l1 := by
      obtain ⟨x, hx⟩ := List.exists_mem_of_ne_nil w hw
      have h1 := hmax x
      have h2 := List.count_pos_iff.mpr hx
      omega
    have hl1w : l1 ∈ w := List.count_pos_iff.mp hl1pos
    have hl2w : l2 ∈ w := List.count_pos_iff.mp (by omega)
    obtain ⟨⟨a, n⟩, rest, hmc⟩ := List.exists_cons_of_ne_nil (mostCommon_ne_nil hw)
    obtain ⟨haw, hn, hmaxa⟩ := mostCommon_head_count_max hmc
    have hmem1 : (l1, w.count l1) ∈ mostCommon w := mem_mostCommon.mpr ⟨hl1w, rfl⟩
    have hmem2 : (l2, w.count l2) ∈ mostCommon w := mem_mostCommon.mpr ⟨hl2w, rfl⟩
    have hrest : (l1, w.count l1) ∈ rest ∨ (l2, w.count l2) ∈ rest := by
      rw [hmc, List.mem_cons] at hmem1 hmem2
      rcases hmem1 with he1 | h1
      · rcases hmem2 with he2 | h2
        · exfalso
          injection he1 with ha1 hb1
          injection he2 with ha2 hb2
          exact hne (ha1.trans ha2.symm)
        · exact Or.inr h2
      · exact Or.inl h1
    match rest, hmc, hrest with
    | (b, m) :: rest2, hmc, hrest =>
      have hpw := mostCommon_pairwise w
      rw [hmc, List.pairwise_cons] at hpw
      have hm_le : m ≤ n := hpw.1 _ (List.mem_cons_self _ _)
      have hpw2 := hpw.2
      rw [List.pairwise_cons] at hpw2
      have hml1 : w.count l1 ≤ n := hmaxa l1
      have hax : w.count a ≤ w.count l1 := hmax a
      have hm_ge : n ≤ m := by
        rcases hrest with hr | hr <;> rw [List.mem_cons] at hr
        · rcases hr with he | hr2
          · injection he with h1 h2
            omega
          · have := hpw2.1 _ hr2
            simp only at this
            omega
        · rcases hr with he | hr2
          · injection he with h1 h2
            omega
          · have := hpw2.1 _ hr2
            simp only at this
            omega
      simp only [correct_cell, hmc]
      rw [if_pos (by omega)]

end SpatialLemmas

/-! ### Window lemmas -/

theorem self_mem_windowList {α : Type} (H W radius r c : ℕ) (p : ℕ → ℕ → α)
    (hr : r < H) (hc : c < W) (hrad : 1 ≤ radius) :
    p r c ∈ windowList H W p radius r c := by
  unfold windowList
  refine List.mem_flatMap.mpr ⟨r, ?_, List.mem_map.mpr ⟨c, ?_, rfl⟩⟩
  · rw [List.mem_range']
    exact ⟨r - (r - (radius - 1)), by omega, by omega⟩
  · rw [List.mem_range']
    exact ⟨c - (c - (radius - 1)), by omega, by omega⟩

theorem windowList_mem_grid {α : Type} {H W radius r c : ℕ} {p : ℕ → ℕ → α} {x : α}
    (hx : x ∈ windowList H W p radius r c) :
    ∃ i j, i < H ∧ j < W ∧ x = p i j := by
  unfold windowList at hx
  obtain ⟨i, hi, hx2⟩ := List.mem_flatMap.mp hx
  obtain ⟨j, hj, rfl⟩ := List.mem_map.mp hx2
  rw [List.mem_range'] at hi hj
  obtain ⟨a, ha, rfl⟩ := hi
  obtain ⟨b, hb, rfl⟩ := hj
  exact ⟨_, _, by omega, by omega, rfl⟩

theorem windowList_radius_one {α : Type} (H W r c : ℕ) (p : ℕ → ℕ → α)
    (hr : r < H) (hc : c < W) :
    windowList H W p 1 r c = [p r c] := by
  unfold windowList
  have hrow : List.range' (r - (1 - 1)) (min H (r + 1) - (r - (1 - 1))) = [r] := by
    have h1 : r - (1 - 1) = r := by omega
    have h2 : min H (r + 1) - r = 1 := by omega
    rw [h1, h2]
    rfl
  have hcol : List.range' (c - (1 - 1)) (min W (c + 1) - (c - (1 - 1))) = [c] := by
    have h1 : c - (1 - 1) = c := by omega
    have h2 : min W (c + 1) - c = 1 := by omega
    rw [h1, h2]
    rfl
  rw [hrow, hcol]
  simp

theorem correct_cell_singleton {α : Type} [DecidableEq α] (x orig : α) :
    correct_cell [x] orig = x := by
  have h : mostCommon [x] = [(x, 1)] := by
    simp [mostCommon]
  simp [correct_cell, h]

theorem correct_cell_mem {α : Type} [DecidableEq α] {w : List α} {orig : α} (ho : orig ∈ w) :
    correct_cell w orig ∈ w := by
  have hw : w ≠ [] := List.ne_nil_of_mem ho
  obtain ⟨⟨l1, n1⟩, rest, hmc⟩ := List.exists_cons_of_ne_nil (mostCommon_ne_nil hw)
  obtain ⟨hl1w, -, -⟩ := mostCommon_head_count_max hmc
  match rest, hmc with
  | [], hmc => simpa [correct_cell, hmc] using hl1w
  | (l2, n2) :: rest2, hmc =>
    simp only [correct_cell, hmc]
    by_cases h : n1 = n2
    · rw [if_pos h]
      exact ho
    · rw [if_neg h]
      exact hl1w

/-! ### Claims about `spatial_correction` -/

/-- C3: at every valid pixel, for every radius ≥ 1, `spatial_correction`
examines the window of rows `[max(0, r-radius+1), min(H, r+radius))` (and
columns analogously, clipped at the borders), assigns the single most frequent
label of that window whenever it is strictly more frequent than every other
label, and keeps the pixel's original label when two (or more) distinct labels
tie for the top frequency. -/
theorem spatial_correction_window_policy {α : Type} [DecidableEq α]
    (H W radius r c : ℕ) (p : ℕ → ℕ → α)
    (hr : r < H) (hc : c < W) (hrad : 1 ≤ radius) :
    ((r - (radius - 1) : ℕ) : ℤ) = max 0 ((r : ℤ) - (radius : ℤ) + 1) ∧
    ((c - (radius - 1) : ℕ) : ℤ) = max 0 ((c : ℤ) - (radius : ℤ) + 1) ∧
    (∀ l, (∀ l2, l2 ≠ l →
        (windowList H W p radius r c).count l2 < (windowList H W p radius r c).count l) →
      spatial_correction H W p radius r c = l) ∧
    ∀ l1 l2, l1 ≠ l2 →
      (∀ l3, (windowList H W p radius r c).count l3 ≤ (windowList H W p radius r c).count l1) →
      (windowList H W p radius r c).count l2 = (windowList H W p radius r c).count l1 →
      spatial_correction H W p radius r c = p r c := by
  have hwne : windowList H W p radius r c ≠ [] :=
    List.ne_nil_of_mem (self_mem_windowList H W radius r c p hr hc hrad)
  exact ⟨by omega, by omega, fun l hl => correct_cell_of_unique_max hwne hl,
    fun l1 l2 hne hmax heq => correct_cell_of_tie hne hmax heq⟩

/-- Witness for C3 at a concrete input. -/
theorem spatial_correction_window_policy_witness :
    0 < 1 ∧ 0 < 1 ∧ 1 ≤ 1 ∧
    ((((0 : ℕ) - ((1 : ℕ) - 1) : ℕ) : ℤ) = max 0 ((0 : ℤ) - (1 : ℤ) + 1) ∧
     (((0 : ℕ) - ((1 : ℕ) - 1) : ℕ) : ℤ) = max 0 ((0 : ℤ) - (1 : ℤ) + 1) ∧
     (∀ l, (∀ l2, l2 ≠ l →
         (windowList 1 1 (fun _ _ => Label.UNCHANGED) 1 0 0).count l2 <
           (windowList 1 1 (fun _ _ => Label.UNCHANGED) 1 0 0).count l) →
       spatial_correction 1 1 (fun _ _ => Label.UNCHANGED) 1 0 0 = l) ∧
     ∀ l1 l2, l1 ≠ l2 →
       (∀ l3, (windowList 1 1 (fun _ _ => Label.UNCHANGED) 1 0 0).count l3 ≤
           (windowList 1 1 (fun _ _ => Label.UNCHANGED) 1 0 0).count l1) →
       (windowList 1 1 (fun _ _ => Label.UNCHANGED) 1 0 0).count l2 =
         (windowList 1 1 (fun _ _ => Label.UNCHANGED) 1 0 0).count l1 →
       spatial_correction 1 1 (fun _ _ => Label.UNCHANGED) 1 0 0 = Label.UNCHANGED) :=
  ⟨by decide, by decide, by decide,
    spatial_correction_window_policy 1 1 1 0 0 (fun _ _ => Label.UNCHANGED)
      (by decide) (by decide) (by decide)⟩

/-- C8: the label written by `spatial_correction` at a valid pixel occurs in
that pixel's clipped window of the input grid, hence somewhere in the grid:
correction never invents a label value absent from the input. -/
theorem spatial_correction_value_in_window {α : Type} [DecidableEq α]
    (H W radius r c : ℕ) (p : ℕ → ℕ → α)
    (hr : r < H) (hc : c < W) (hrad : 1 ≤ radius) :
    spatial_correction H W p radius r c ∈ windowList H W p radius r c ∧
    ∃ i j, i < H ∧ j < W ∧ spatial_correction H W p radius r c = p i j := by
  have hmem : spatial_correction H W p radius r c ∈ windowList H W p radius r c :=
    correct_cell_mem (self_mem_windowList H W radius r c p hr hc hrad)
  exact ⟨hmem, windowList_mem_grid hmem⟩

/-- Witness for C8 at a concrete input. -/
theorem spatial_correction_value_in_window_witness :
    0 < 2 ∧ 1 < 2 ∧ 1 ≤ 2 ∧
    (spatial_correction 2 2 (fun r _ => if r = 0 then Label.CHANGED else Label.UNCHANGED) 2 0 1 ∈
        windowList 2 2 (fun r _ => if r = 0 then Label.CHANGED else Label.UNCHANGED) 2 0 1 ∧
     ∃ i j, i < 2 ∧ j < 2 ∧
       spatial_correction 2 2 (fun r _ => if r = 0 then Label.CHANGED else Label.UNCHANGED) 2 0 1 =
         (fun r _ => if r = 0 then Label.CHANGED else Label.UNCHANGED) i j) :=
  ⟨by decide, by decide, by decide,
    spatial_correction_value_in_window 2 2 2 0 1
      (fun r _ => if r = 0 then Label.CHANGED else Label.UNCHANGED)
      (by decide) (by decide) (by decide)⟩

/-- C9: `spatial_correction` with radius 1 is the identity at every valid
pixel: the clipped window is the single pixel itself, its frequency table has
one entry, and that entry is assigned back. -/
theorem spatial_correction_radius_one_id {α : Type} [DecidableEq α]
    (H W r c : ℕ) (p : ℕ → ℕ → α) (hr : r < H) (hc : c < W) :
    spatial_correction H W p 1 r c = p r c := by
  show correct_cell (windowList H W p 1 r c) (p r c) = p r c
  rw [windowList_radius_one H W r c p hr hc, correct_cell_singleton]

/-- Witness for C9 at a concrete input. -/
theorem spatial_correction_radius_one_id_witness :
    0 < 2 ∧ 1 < 2 ∧
    spatial_correction 2 2 (fun r c => if r = c then Label.CHANGED else Label.UNCHANGED) 1 0 1 =
      (fun r c : ℕ => if r = c then Label.CHANGED else Label.UNCHANGED) 0 1 :=
  ⟨by decide, by decide,
    spatial_correction_radius_one_id 2 2 0 1
      (fun r c => if r = c then Label.CHANGED else Label.UNCHANGED) (by decide) (by decide)⟩

/-! ### Claim C7: label building is elementwise and monotone in the threshold -/

/-- C7: `buildLabels` (the label branch of `pseudo_labels`) is elementwise
(CHANGED iff distance > threshold), repeating it with the same threshold gives
the identical map (it is a pure function), and it is monotone in the
threshold: raising the threshold keeps every UNCHANGED position UNCHANGED
(equivalently, it can only flip CHANGED positions to UNCHANGED). -/
theorem pseudo_labels_map_threshold_monotone (ds : List ℚ) (t t2 : ℚ) (h : t ≤ t2) :
    (∀ i, i < ds.length →
      (pseudo_labels_map ds t).getD i Label.UNKNOWN =
        if t < ds.getD i 0 then Label.CHANGED else Label.UNCHANGED) ∧
    pseudo_labels_map ds t = pseudo_labels_map ds t ∧
    ∀ i, i < ds.length →
      (pseudo_labels_map ds t).getD i Label.UNKNOWN = Label.UNCHANGED →
      (pseudo_labels_map ds t2).getD i Label.UNKNOWN = Label.UNCHANGED := by
  have hget : ∀ (s : ℚ) i, i < ds.length →
      (pseudo_labels_map ds s).getD i Label.UNKNOWN =
        if s < ds.getD i 0 then Label.CHANGED else Label.UNCHANGED := by
    intro s i hi
    unfold pseudo_labels_map
    rw [List.getD_eq_getElem?_getD, List.getElem?_map, List.getElem?_eq_getElem hi,
      List.getD_eq_getElem?_getD, List.getElem?_eq_getElem hi]
    rfl
  refine ⟨fun i hi => hget t i hi, rfl, fun i hi hU => ?_⟩
  rw [hget t i hi] at hU
  rw [hget t2 i hi]
  by_cases hlt : t2 < ds.getD i 0
  · exfalso
    have hlt1 : t < ds.getD i 0 := lt_of_le_of_lt h hlt
    rw [if_pos hlt1] at hU
    exact Label.noConfusion hU
  · rw [if_neg hlt]

/-- Witness for C7 at a concrete input. -/
theorem pseudo_labels_map_threshold_monotone_witness :
    (0 : ℚ) ≤ 1 ∧
    ((∀ i, i < [mkRat 1 2].length →
      (pseudo_labels_map [mkRat 1 2] 0).getD i Label.UNKNOWN =
        if (0 : ℚ) < [mkRat 1 2].getD i 0 then Label.CHANGED else Label.UNCHANGED) ∧
    pseudo_labels_map [mkRat 1 2] 0 = pseudo_labels_map [mkRat 1 2] 0 ∧
    ∀ i, i < [mkRat 1 2].length →
      (pseudo_labels_map [mkRat 1 2] 0).getD i Label.UNKNOWN = Label.UNCHANGED →
      (pseudo_labels_map [mkRat 1 2] 1).getD i Label.UNKNOWN = Label.UNCHANGED) :=
  ⟨by norm_num, pseudo_labels_map_threshold_monotone [mkRat 1 2] 0 1 (by norm_num)⟩

/-! ### Claim C5: fail-fast validation of percentage and radius -/

/-- C5: `labels_by_percentage` returns its validation error exactly when the
percentage lies outside (0, 1], `labels_by_neighborhood` returns its
validation error exactly when radius < 1, and in each function no other error
message is ever produced; the error message names the offending parameter. -/
theorem selection_validation_errors (pseudo : PseudoRecord) (percentage : ℚ) (radius : ℤ) :
    (labels_by_percentage pseudo percentage =
        Except.error "ERROR: percentage must be a float in ]0,1]" ↔
      percentage ≤ 0 ∨ 1 < percentage) ∧
    (labels_by_neighborhood pseudo radius =
        Except.error "ERROR: radius must be a int >=1" ↔ radius < 1) ∧
    (∀ e, labels_by_percentage pseudo percentage = Except.error e →
      e = "ERROR: percentage must be a float in ]0,1]") ∧
    (∀ e, labels_by_neighborhood pseudo radius = Except.error e →
      e = "ERROR: radius must be a int >=1") := by
  unfold labels_by_percentage labels_by_neighborhood
  by_cases hp : percentage ≤ 0 ∨ 1 < percentage <;> by_cases hr : radius < 1 <;>
    simp [hp, hr]

/-- Witness for C5 at concrete inputs. -/
theorem selection_validation_errors_witness :
    (labels_by_percentage ⟨[mkRat 1 2], mkRat 1 2, (1, 1)⟩ 2 =
        Except.error "ERROR: percentage must be a float in ]0,1]" ↔
      (2 : ℚ) ≤ 0 ∨ (1 : ℚ) < 2) ∧
    (labels_by_neighborhood ⟨[mkRat 1 2], mkRat 1 2, (1, 1)⟩ 0 =
        Except.error "ERROR: radius must be a int >=1" ↔ (0 : ℤ) < 1) ∧
    (∀ e, labels_by_percentage ⟨[mkRat 1 2], mkRat 1 2, (1, 1)⟩ 2 = Except.error e →
      e = "ERROR: percentage must be a float in ]0,1]") ∧
    (∀ e, labels_by_neighborhood ⟨[mkRat 1 2], mkRat 1 2, (1, 1)⟩ 0 = Except.error e →
      e = "ERROR: radius must be a int >=1") :=
  selection_validation_errors ⟨[mkRat 1 2], mkRat 1 2, (1, 1)⟩ 2 0

/-! ### Claim C1: the end-to-end scenario of the spec -/

/-- C1 (counterexample): for distances [0.1, 0.2, 0.8, 0.9], threshold 0.5,
shape (2,2) and percentage 0.5, the claim says `selectByPercentage` returns
indices [0, 2]; the code returns [0, 3] — the farthest CHANGED pixel is the
0.9 distance at flat index 3, not index 2. -/
theorem end_to_end_claimed_indices_false :
    labels_by_percentage
        ⟨[mkRat 1 10, mkRat 2 10, mkRat 8 10, mkRat 9 10], mkRat 1 2, (2, 2)⟩ (mkRat 1 2) ≠
      Except.ok ([0, 2], [Label.UNCHANGED, Label.CHANGED]) := by
  intro h
  rw [show labels_by_percentage
        ⟨[mkRat 1 10, mkRat 2 10, mkRat 8 10, mkRat 9 10], mkRat 1 2, (2, 2)⟩ (mkRat 1 2) =
      Except.ok ([0, 3], [Label.UNCHANGED, Label.CHANGED]) from rfl] at h
  simp at h

/-- C1 (amended): for the spec's record, `buildLabels` yields
[UNCHANGED, UNCHANGED, CHANGED, CHANGED] and `selectByPercentage` with
percentage 0.5 returns indices [0, 3] (the closest-to-0 UNCHANGED pixel
followed by the farthest CHANGED pixel, whose flat index is 3) with labels
[UNCHANGED, CHANGED]. -/
theorem end_to_end_scenario :
    pseudo_labels_map [mkRat 1 10, mkRat 2 10, mkRat 8 10, mkRat 9 10] (mkRat 1 2) =
      [Label.UNCHANGED, Label.UNCHANGED, Label.CHANGED, Label.CHANGED] ∧
    labels_by_percentage
        ⟨[mkRat 1 10, mkRat 2 10, mkRat 8 10, mkRat 9 10], mkRat 1 2, (2, 2)⟩ (mkRat 1 2) =
      Except.ok ([0, 3], [Label.UNCHANGED, Label.CHANGED]) :=
  ⟨rfl, rfl⟩

/-- The explicit-fraction truncation used by `labels_by_percentage` is the
floor of the rational product, i.e. Python's `int(percentage * len(...))` on
non-negative values. -/
theorem intTruncMul_eq_floor (q : ℚ) (n : ℕ) :
    intTruncMul q n = (⌊q * (n : ℚ)⌋).toNat := by
  unfold intTruncMul
  have h1 : mkRat (q.num * n) q.den = q * n := by
    rw [Rat.mkRat_eq_div]
    push_cast
    rw [mul_div_right_comm, Rat.num_div_den]
  rw [h1, Rat.floor_def', ← Rat.floor_def]

/-! ### Lemmas about `nmatrixOf` and `cmatrixOf` -/

theorem nmatrixOf_mem {pseudo : PseudoRecord} {d : ℚ} {i : ℕ}
    (h : (d, i) ∈ nmatrixOf pseudo) :
    i < pseudo.distances.length ∧ pseudo.distances.getD i 0 = d ∧ d ≤ pseudo.threshold := by
  unfold nmatrixOf at h
  rw [List.mem_insertionSort, List.mem_map] at h
  obtain ⟨⟨a, b⟩, hdi, heq⟩ := h
  injection heq with h1 h2
  subst h1
  subst h2
  obtain ⟨hmem, hdec⟩ := List.mem_filter.mp hdi
  rw [List.mem_enum_iff_getElem?] at hmem
  obtain ⟨hlt, hval⟩ := List.getElem?_eq_some_iff.mp hmem
  refine ⟨hlt, ?_, of_decide_eq_true hdec⟩
  rw [List.getD_eq_getElem?_getD, List.getElem?_eq_getElem hlt]
  exact hval

theorem cmatrixOf_mem {pseudo : PseudoRecord} {d : ℚ} {i : ℕ}
    (h : (d, i) ∈ cmatrixOf pseudo) :
    i < pseudo.distances.length ∧ pseudo.distances.getD i 0 = d ∧ pseudo.threshold < d := by
  unfold cmatrixOf at h
  rw [List.mem_insertionSort, List.mem_map] at h
  obtain ⟨⟨a, b⟩, hdi, heq⟩ := h
  injection heq with h1 h2
  subst h1
  subst h2
  obtain ⟨hmem, hdec⟩ := List.mem_filter.mp hdi
  rw [List.mem_enum_iff_getElem?] at hmem
  obtain ⟨hlt, hval⟩ := List.getElem?_eq_some_iff.mp hmem
  refine ⟨hlt, ?_, of_decide_eq_true hdec⟩
  rw [List.getD_eq_getElem?_getD, List.getElem?_eq_getElem hlt]
  exact hval

theorem nmatrixOf_snd_perm (pseudo : PseudoRecord) :
    List.Perm ((nmatrixOf pseudo).map Prod.snd)
      ((pseudo.distances.enum.filter fun di => decide (di.2 ≤ pseudo.threshold)).map
        Prod.fst) := by
  unfold nmatrixOf
  have h := (List.perm_insertionSort (fun a b : ℚ × ℕ => a.1 ≤ b.1)
    ((pseudo.distances.enum.filter fun di => decide (di.2 ≤ pseudo.threshold)).map
      fun di => (di.2, di.1))).map Prod.snd
  rw [List.map_map] at h
  exact h

theorem cmatrixOf_snd_perm (pseudo : PseudoRecord) :
    List.Perm ((cmatrixOf pseudo).map Prod.snd)
      ((pseudo.distances.enum.filter fun di => decide (pseudo.threshold < di.2)).map
        Prod.fst) := by
  unfold cmatrixOf
  have h := (List.perm_insertionSort (fun a b : ℚ × ℕ => b.1 ≤ a.1)
    ((pseudo.distances.enum.filter fun di => decide (pseudo.threshold < di.2)).map
      fun di => (di.2, di.1))).map Prod.snd
  rw [List.map_map] at h
  exact h

theorem nmatrixOf_snd_nodup (pseudo : PseudoRecord) :
    ((nmatrixOf pseudo).map Prod.snd).Nodup := by
  refine (nmatrixOf_snd_perm pseudo).nodup_iff.mpr ?_
  have hsub : List.Sublist
      ((pseudo.distances.enum.filter fun di =>
        decide (di.2 ≤ pseudo.threshold)).map Prod.fst)
      (pseudo.distances.enum.map Prod.fst) := (List.filter_sublist _).map Prod.fst
  refine hsub.nodup ?_
  rw [List.enum_map_fst]
  exact List.nodup_range _

theorem cmatrixOf_snd_nodup (pseudo : PseudoRecord) :
    ((cmatrixOf pseudo).map Prod.snd).Nodup := by
  refine (cmatrixOf_snd_perm pseudo).nodup_iff.mpr ?_
  have hsub : List.Sublist
      ((pseudo.distances.enum.filter fun di =>
        decide (pseudo.threshold < di.2)).map Prod.fst)
      (pseudo.distances.enum.map Prod.fst) := (List.filter_sublist _).map Prod.fst
  refine hsub.nodup ?_
  rw [List.enum_map_fst]
  exact List.nodup_range _

theorem nmatrixOf_sorted (pseudo : PseudoRecord) :
    (nmatrixOf pseudo).Pairwise fun a b => a.1 ≤ b.1 := by
  haveI : IsTotal (ℚ × ℕ) fun a b => a.1 ≤ b.1 := ⟨fun a b => le_total a.1 b.1⟩
  haveI : IsTrans (ℚ × ℕ) fun a b => a.1 ≤ b.1 := ⟨fun a b c hab hbc => le_trans hab hbc⟩
  exact List.sorted_insertionSort _ _

theorem cmatrixOf_sorted (pseudo : PseudoRecord) :
    (cmatrixOf pseudo).Pairwise fun a b => b.1 ≤ a.1 := by
  haveI : IsTotal (ℚ × ℕ) fun a b : ℚ × ℕ => b.1 ≤ a.1 := ⟨fun a b => le_total b.1 a.1⟩
  haveI : IsTrans (ℚ × ℕ) fun a b : ℚ × ℕ => b.1 ≤ a.1 :=
    ⟨fun a b c hab hbc => le_trans hbc hab⟩
  exact List.sorted_insertionSort _ _

theorem nmatrixOf_length (pseudo : PseudoRecord) :
    (nmatrixOf pseudo).length =
      (pseudo.distances.filter fun d => decide (d ≤ pseudo.threshold)).length := by
  unfold nmatrixOf
  rw [List.length_insertionSort, List.length_map, ← List.countP_eq_length_filter,
    ← List.countP_eq_length_filter]
  conv_rhs => rw [← List.enum_map_snd pseudo.distances]
  rw [List.countP_map]
  rfl

theorem cmatrixOf_length (pseudo : PseudoRecord) :
    (cmatrixOf pseudo).length =
      (pseudo.distances.filter fun d => decide (pseudo.threshold < d)).length := by
  unfold cmatrixOf
  rw [List.length_insertionSort, List.length_map, ← List.countP_eq_length_filter,
    ← List.countP_eq_length_filter]
  conv_rhs => rw [← List.enum_map_snd pseudo.distances]
  rw [List.countP_map]
  rfl

theorem intTruncMul_le {q : ℚ} (hq : q ≤ 1) (n : ℕ) : intTruncMul q n ≤ n := by
  rw [intTruncMul_eq_floor]
  have h1 : ⌊q * (n : ℚ)⌋ ≤ (n : ℤ) := by
    calc ⌊q * (n : ℚ)⌋ ≤ ⌊((n : ℚ))⌋ :=
          Int.floor_le_floor (mul_le_of_le_one_left (Nat.cast_nonneg n) hq)
      _ = (n : ℤ) := Int.floor_natCast n
  omega

theorem intTruncMul_cast {q : ℚ} (h0 : 0 < q) (n : ℕ) :
    (intTruncMul q n : ℤ) = ⌊q * (n : ℚ)⌋ := by
  rw [intTruncMul_eq_floor]
  have h1 : 0 ≤ ⌊q * (n : ℚ)⌋ := by
    rw [Int.le_floor]
    push_cast
    exact mul_nonneg h0.le (Nat.cast_nonneg n)
  omega

theorem labels_by_percentage_ok (pseudo : PseudoRecord) (percentage : ℚ)
    (h0 : 0 < percentage) (h1 : percentage ≤ 1) :
    labels_by_percentage pseudo percentage =
      Except.ok
        (((nmatrixOf pseudo).take
              (intTruncMul percentage (nmatrixOf pseudo).length)).map Prod.snd ++
            ((cmatrixOf pseudo).take
              (intTruncMul percentage (cmatrixOf pseudo).length)).map Prod.snd,
          List.replicate (intTruncMul percentage (nmatrixOf pseudo).length) Label.UNCHANGED ++
            List.replicate (intTruncMul percentage (cmatrixOf pseudo).length) Label.CHANGED) := by
  unfold labels_by_percentage
  rw [if_neg]
  push_neg
  exact ⟨h0, h1⟩

/-! ### Claim C4: stratified percentage selection -/

/-- C4: for every record and percentage in (0,1], `labels_by_percentage`
returns exactly floor(percentage × |{i : dᵢ ≤ t}|) UNCHANGED positions
followed by exactly floor(percentage × |{i : dᵢ > t}|) CHANGED positions; the
UNCHANGED block lists positions in ascending distance order, the CHANGED block
in descending distance order, and the labels array is the matching run of
UNCHANGED then CHANGED constants.  (With percentage 0.5 over 10 + 10
candidates this is 5 + 5 = 10 selections; see the witness.) -/
theorem labels_by_percentage_stratified (pseudo : PseudoRecord) (percentage : ℚ)
    (h0 : 0 < percentage) (h1 : percentage ≤ 1) :
    ∃ selN selC : List ℕ,
      labels_by_percentage pseudo percentage =
        Except.ok (selN ++ selC,
          List.replicate selN.length Label.UNCHANGED ++
            List.replicate selC.length Label.CHANGED) ∧
      (selN.length : ℤ) =
        ⌊percentage *
          ((pseudo.distances.filter fun d => decide (d ≤ pseudo.threshold)).length : ℚ)⌋ ∧
      (selC.length : ℤ) =
        ⌊percentage *
          ((pseudo.distances.filter fun d => decide (pseudo.threshold < d)).length : ℚ)⌋ ∧
      (∀ i ∈ selN, pseudo.distances.getD i 0 ≤ pseudo.threshold) ∧
      (∀ i ∈ selC, pseudo.threshold < pseudo.distances.getD i 0) ∧
      (selN.map fun i => pseudo.distances.getD i 0).Pairwise (· ≤ ·) ∧
      (selC.map fun i => pseudo.distances.getD i 0).Pairwise (fun a b => b ≤ a) := by
  have hnkle : intTruncMul percentage (nmatrixOf pseudo).length ≤ (nmatrixOf pseudo).length :=
    intTruncMul_le h1 _
  have hckle : intTruncMul percentage (cmatrixOf pseudo).length ≤ (cmatrixOf pseudo).length :=
    intTruncMul_le h1 _
  have hlenN : (((nmatrixOf pseudo).take
      (intTruncMul percentage (nmatrixOf pseudo).length)).map Prod.snd).length =
      intTruncMul percentage (nmatrixOf pseudo).length := by
    rw [List.length_map, List.length_take, Nat.min_eq_left hnkle]
  have hlenC : (((cmatrixOf pseudo).take
      (intTruncMul percentage (cmatrixOf pseudo).length)).map Prod.snd).length =
      intTruncMul percentage (cmatrixOf pseudo).length := by
    rw [List.length_map, List.length_take, Nat.min_eq_left hckle]
  refine ⟨((nmatrixOf pseudo).take
      (intTruncMul percentage (nmatrixOf pseudo).length)).map Prod.snd,
    ((cmatrixOf pseudo).take
      (intTruncMul percentage (cmatrixOf pseudo).length)).map Prod.snd,
    ?_, ?_, ?_, ?_, ?_, ?_, ?_⟩
  · rw [hlenN, hlenC]
    exact labels_by_percentage_ok pseudo percentage h0 h1
  · rw [hlenN, intTruncMul_cast h0, nmatrixOf_length]
  · rw [hlenC, intTruncMul_cast h0, cmatrixOf_length]
  · intro i hi
    obtain ⟨pair, hpair, rfl⟩ := List.mem_map.mp hi
    obtain ⟨-, hval, hle⟩ := nmatrixOf_mem (List.mem_of_mem_take hpair)
    rw [hval]
    exact hle
  · intro i hi
    obtain ⟨pair, hpair, rfl⟩ := List.mem_map.mp hi
    obtain ⟨-, hval, hlt⟩ := cmatrixOf_mem (List.mem_of_mem_take hpair)
    rw [hval]
    exact hlt
  · rw [List.map_map]
    have hmapeq : ((nmatrixOf pseudo).take
          (intTruncMul percentage (nmatrixOf pseudo).length)).map
          ((fun i => pseudo.distances.getD i 0) ∘ Prod.snd) =
        ((nmatrixOf pseudo).take
          (intTruncMul percentage (nmatrixOf pseudo).length)).map Prod.fst :=
      List.map_congr_left fun a ha => (nmatrixOf_mem (List.mem_of_mem_take ha)).2.1
    rw [hmapeq]
    have hsorted : ((nmatrixOf pseudo).take
        (intTruncMul percentage (nmatrixOf pseudo).length)).Pairwise
          fun a b : ℚ × ℕ => a.1 ≤ b.1 :=
      (nmatrixOf_sorted pseudo).sublist (List.take_sublist _ _)
    exact hsorted.map _ fun a b h => h
  · rw [List.map_map]
    have hmapeq : ((cmatrixOf pseudo).take
          (intTruncMul percentage (cmatrixOf pseudo).length)).map
          ((fun i => pseudo.distances.getD i 0) ∘ Prod.snd) =
        ((cmatrixOf pseudo).take
          (intTruncMul percentage (cmatrixOf pseudo).length)).map Prod.fst :=
      List.map_congr_left fun a ha => (cmatrixOf_mem (List.mem_of_mem_take ha)).2.1
    rw [hmapeq]
    have hsorted : ((cmatrixOf pseudo).take
        (intTruncMul percentage (cmatrixOf pseudo).length)).Pairwise
          fun a b : ℚ × ℕ => b.1 ≤ a.1 :=
      (cmatrixOf_sorted pseudo).sublist (List.take_sublist _ _)
    exact hsorted.map _ fun a b h => h

/-- Witness for C4 at a concrete record with 10 UNCHANGED and 10 CHANGED
candidates and percentage 0.5 (5 + 5 = 10 selections). -/
theorem labels_by_percentage_stratified_witness :
    (0 : ℚ) < mkRat 1 2 ∧ mkRat 1 2 ≤ 1 ∧
    (∃ selN selC : List ℕ,
      labels_by_percentage
          ⟨List.replicate 10 (mkRat 1 10) ++ List.replicate 10 (mkRat 9 10),
            mkRat 1 2, (4, 5)⟩ (mkRat 1 2) =
        Except.ok (selN ++ selC,
          List.replicate selN.length Label.UNCHANGED ++
            List.replicate selC.length Label.CHANGED) ∧
      (selN.length : ℤ) =
        ⌊mkRat 1 2 *
          (((List.replicate 10 (mkRat 1 10) ++ List.replicate 10 (mkRat 9 10)).filter
            fun d => decide (d ≤ mkRat 1 2)).length : ℚ)⌋ ∧
      (selC.length : ℤ) =
        ⌊mkRat 1 2 *
          (((List.replicate 10 (mkRat 1 10) ++ List.replicate 10 (mkRat 9 10)).filter
            fun d => decide (mkRat 1 2 < d)).length : ℚ)⌋ ∧
      (∀ i ∈ selN,
        (List.replicate 10 (mkRat 1 10) ++ List.replicate 10 (mkRat 9 10)).getD i 0 ≤
          mkRat 1 2) ∧
      (∀ i ∈ selC,
        mkRat 1 2 <
          (List.replicate 10 (mkRat 1 10) ++ List.replicate 10 (mkRat 9 10)).getD i 0) ∧
      (selN.map fun i =>
        (List.replicate 10 (mkRat 1 10) ++ List.replicate 10 (mkRat 9 10)).getD i 0).Pairwise
          (· ≤ ·) ∧
      (selC.map fun i =>
        (List.replicate 10 (mkRat 1 10) ++ List.replicate 10 (mkRat 9 10)).getD i 0).Pairwise
          (fun a b => b ≤ a)) :=
  ⟨by decide, by decide,
    labels_by_percentage_stratified
      ⟨List.replicate 10 (mkRat 1 10) ++ List.replicate 10 (mkRat 9 10), mkRat 1 2, (4, 5)⟩
      (mkRat 1 2) (by decide) (by decide)⟩

/-! ### Claim C10: percentage 1 selects every pixel exactly once -/

theorem intTruncMul_one (n : ℕ) : intTruncMul 1 n = n := by
  rw [intTruncMul_eq_floor, one_mul, Int.floor_natCast]
  omega

/-- C10: `labels_by_percentage` with percentage 1 returns every flat position
of the distance array exactly once (a permutation of `range length`, the
UNCHANGED class first), the result length equals the pixel count, and every
returned label agrees with thresholding the distance at its own index. -/
theorem labels_by_percentage_full (pseudo : PseudoRecord) (sel : List ℕ) (labs : List Label)
    (h : labels_by_percentage pseudo 1 = Except.ok (sel, labs)) :
    List.Perm sel (List.range pseudo.distances.length) ∧
    sel.length = pseudo.distances.length ∧
    labs.length = pseudo.distances.length ∧
    ∀ pr ∈ sel.zip labs,
      pr.2 = if pseudo.threshold < pseudo.distances.getD pr.1 0 then Label.CHANGED
             else Label.UNCHANGED := by
  have hok := labels_by_percentage_ok pseudo 1 one_pos le_rfl
  rw [intTruncMul_one, intTruncMul_one, List.take_length, List.take_length] at hok
  rw [hok] at h
  injection h with h2
  injection h2 with hsel hlabs
  subst hsel
  subst hlabs
  have hfilters : pseudo.distances.enum.filter (fun di => decide (pseudo.threshold < di.2)) =
      pseudo.distances.enum.filter fun di => !decide (di.2 ≤ pseudo.threshold) :=
    List.filter_congr fun di _ => by
      rw [← decide_not]
      exact decide_eq_decide.mpr not_le.symm
  have hperm2 : List.Perm
      ((pseudo.distances.enum.filter fun di => decide (di.2 ≤ pseudo.threshold)) ++
        pseudo.distances.enum.filter fun di => decide (pseudo.threshold < di.2))
      pseudo.distances.enum := by
    rw [hfilters]
    exact List.filter_append_perm _ _
  have happ := (nmatrixOf_snd_perm pseudo).append (cmatrixOf_snd_perm pseudo)
  have hmapped := hperm2.map Prod.fst
  rw [List.map_append] at hmapped
  have hselperm : List.Perm
      ((nmatrixOf pseudo).map Prod.snd ++ (cmatrixOf pseudo).map Prod.snd)
      (List.range pseudo.distances.length) :=
    happ.trans (hmapped.trans (List.Perm.of_eq (List.enum_map_fst _)))
  have hNlen : (nmatrixOf pseudo).length =
      (pseudo.distances.enum.filter fun di => decide (di.2 ≤ pseudo.threshold)).length := by
    unfold nmatrixOf
    rw [List.length_insertionSort, List.length_map]
  have hClen : (cmatrixOf pseudo).length =
      (pseudo.distances.enum.filter fun di => decide (pseudo.threshold < di.2)).length := by
    unfold cmatrixOf
    rw [List.length_insertionSort, List.length_map]
  have hsum : (nmatrixOf pseudo).length + (cmatrixOf pseudo).length =
      pseudo.distances.length := by
    have := hperm2.length_eq
    rw [List.length_append, List.enum_length] at this
    omega
  refine ⟨hselperm, ?_, ?_, ?_⟩
  · rw [hselperm.length_eq, List.length_range]
  · rw [List.length_append, List.length_replicate, List.length_replicate]
    exact hsum
  · rintro ⟨a, b⟩ hpr
    rw [List.zip_append (by rw [List.length_map, List.length_replicate])] at hpr
    rcases List.mem_append.mp hpr with hmem | hmem
    · obtain ⟨h1, h2⟩ := List.of_mem_zip hmem
      obtain ⟨pair, hpair, rfl⟩ := List.mem_map.mp h1
      obtain ⟨-, hval, hle⟩ := nmatrixOf_mem hpair
      show b = _
      rw [List.eq_of_mem_replicate h2, hval, if_neg (not_lt.mpr hle)]
    · obtain ⟨h1, h2⟩ := List.of_mem_zip hmem
      obtain ⟨pair, hpair, rfl⟩ := List.mem_map.mp h1
      obtain ⟨-, hval, hlt⟩ := cmatrixOf_mem hpair
      show b = _
      rw [List.eq_of_mem_replicate h2, hval, if_pos hlt]

/-- Witness for C10 at a concrete record. -/
theorem labels_by_percentage_full_witness :
    labels_by_percentage ⟨[mkRat 1 10, mkRat 9 10], mkRat 1 2, (1, 2)⟩ 1 =
      Except.ok ([0, 1], [Label.UNCHANGED, Label.CHANGED]) ∧
    (List.Perm [0, 1] (List.range ([mkRat 1 10, mkRat 9 10] : List ℚ).length) ∧
     ([0, 1] : List ℕ).length = ([mkRat 1 10, mkRat 9 10] : List ℚ).length ∧
     ([Label.UNCHANGED, Label.CHANGED] : List Label).length =
       ([mkRat 1 10, mkRat 9 10] : List ℚ).length ∧
     ∀ pr ∈ ([0, 1] : List ℕ).zip [Label.UNCHANGED, Label.CHANGED],
       pr.2 = if mkRat 1 2 < ([mkRat 1 10, mkRat 9 10] : List ℚ).getD pr.1 0 then
                Label.CHANGED
              else Label.UNCHANGED) :=
  ⟨rfl, labels_by_percentage_full ⟨[mkRat 1 10, mkRat 9 10], mkRat 1 2, (1, 2)⟩ [0, 1]
    [Label.UNCHANGED, Label.CHANGED] rfl⟩

/-! ### Row-major scan order of the neighborhood selection -/

theorem scan_pairs_mem {W : ℕ} {cond : ℕ → ℕ → Prop} [instD : ∀ r c, Decidable (cond r c)]
    {g : ℕ → ℕ → Label} {row : ℕ} {x : ℕ}
    (hx : x ∈ ((List.range W).filterMap fun col =>
        if cond row col then some (row * W + col, g row col) else none).map Prod.fst) :
    ∃ c, c < W ∧ x = row * W + c := by
  obtain ⟨pair, hpair, rfl⟩ := List.mem_map.mp hx
  obtain ⟨col, hcol, hsome⟩ := List.mem_filterMap.mp hpair
  rw [List.mem_range] at hcol
  by_cases h : cond row col
  · rw [if_pos h] at hsome
    injection hsome with h2
    exact ⟨col, hcol, by rw [← h2]⟩
  · rw [if_neg h] at hsome
    exact Option.noConfusion hsome

theorem scan_pairs_fst_pairwise (H W : ℕ) (cond : ℕ → ℕ → Prop)
    [instD : ∀ r c, Decidable (cond r c)] (g : ℕ → ℕ → Label) :
    (((List.range H).flatMap fun row =>
        (List.range W).filterMap fun col =>
          if cond row col then some (row * W + col, g row col) else none).map
      Prod.fst).Pairwise (· < ·) := by
  rw [List.map_flatMap, List.pairwise_flatMap]
  constructor
  · intro row hrow
    rw [List.map_filterMap, List.pairwise_filterMap]
    refine (List.pairwise_lt_range W).imp ?_
    intro c1 c2 hlt x hx y hy
    by_cases h1 : cond row c1
    · by_cases h2 : cond row c2
      · rw [if_pos h1] at hx
        rw [if_pos h2] at hy
        rw [Option.mem_def, Option.map_some', Option.some.injEq] at hx hy
        omega
      · rw [if_neg h2] at hy
        simp at hy
    · rw [if_neg h1] at hx
      simp at hx
  · refine (List.pairwise_lt_range H).imp ?_
    intro r1 r2 hlt x hx y hy
    obtain ⟨c1, hc1, rfl⟩ := scan_pairs_mem hx
    obtain ⟨c2, hc2, rfl⟩ := scan_pairs_mem hy
    have h1 : r1 * W + c1 < (r1 + 1) * W := by
      rw [Nat.succ_mul]
      omega
    have h2 : (r1 + 1) * W ≤ r2 * W := Nat.mul_le_mul_right W hlt
    omega

/-- The flat indices appended by the neighborhood selection loop are strictly
increasing: row-major scan order. -/
theorem neighborhoodPairs_fst_pairwise (pseudo : PseudoRecord) (radius : ℤ) :
    ((neighborhoodPairs pseudo radius).map Prod.fst).Pairwise (· < ·) := by
  unfold neighborhoodPairs
  exact scan_pairs_fst_pairwise pseudo.shape.1 pseudo.shape.2 _ _

/-! ### Claim C6: SelectionResult invariants -/

/-- C6: every successful result of `labels_by_percentage` and of
`labels_by_neighborhood` has as many labels as indices, and the indices
within one result are pairwise distinct. -/
theorem selection_result_invariants (pseudo : PseudoRecord) (percentage : ℚ) (radius : ℤ)
    (selp : List ℕ) (labp : List Label) (seln : List ℕ) (labn : List Label)
    (hp : labels_by_percentage pseudo percentage = Except.ok (selp, labp))
    (hn : labels_by_neighborhood pseudo radius = Except.ok (seln, labn)) :
    selp.length = labp.length ∧ selp.Nodup ∧
    seln.length = labn.length ∧ seln.Nodup := by
  have hPart1 : selp.length = labp.length ∧ selp.Nodup := by
    by_cases hcond : percentage ≤ 0 ∨ 1 < percentage
    · rw [labels_by_percentage, if_pos hcond] at hp
      exact absurd hp (by simp)
    · push_neg at hcond
      rw [labels_by_percentage_ok pseudo percentage hcond.1 hcond.2] at hp
      injection hp with hp2
      injection hp2 with hsel hlab
      subst hsel
      subst hlab
      constructor
      · rw [List.length_append, List.length_append, List.length_map, List.length_take,
          List.length_map, List.length_take, List.length_replicate, List.length_replicate,
          Nat.min_eq_left (intTruncMul_le hcond.2 _), Nat.min_eq_left (intTruncMul_le hcond.2 _)]
      · refine List.Nodup.append ?_ ?_ ?_
        · exact ((List.take_sublist _ _).map Prod.snd).nodup (nmatrixOf_snd_nodup pseudo)
        · exact ((List.take_sublist _ _).map Prod.snd).nodup (cmatrixOf_snd_nodup pseudo)
        · intro i hiN hiC
          obtain ⟨pair1, hp1, rfl⟩ := List.mem_map.mp hiN
          obtain ⟨-, hv1, hle⟩ := nmatrixOf_mem (List.mem_of_mem_take hp1)
          obtain ⟨pair2, hp2, heq2⟩ := List.mem_map.mp hiC
          obtain ⟨-, hv2, hlt⟩ := cmatrixOf_mem (List.mem_of_mem_take hp2)
          rw [heq2] at hv2
          rw [hv1] at hv2
          exact absurd (hv2 ▸ hle) (not_le.mpr hlt)
  have hPart2 : seln.length = labn.length ∧ seln.Nodup := by
    by_cases hrad : radius < 1
    · rw [labels_by_neighborhood, if_pos hrad] at hn
      exact absurd hn (by simp)
    · rw [labels_by_neighborhood, if_neg hrad] at hn
      injection hn with hn2
      injection hn2 with hsel hlab
      subst hsel
      subst hlab
      refine ⟨by rw [List.length_map, List.length_map], ?_⟩
      exact (neighborhoodPairs_fst_pairwise pseudo radius).imp Nat.ne_of_lt
  exact ⟨hPart1.1, hPart1.2, hPart2.1, hPart2.2⟩

/-- Witness for C6 at a concrete record. -/
theorem selection_result_invariants_witness :
    labels_by_percentage
        ⟨[mkRat 1 10, mkRat 2 10, mkRat 8 10, mkRat 9 10], mkRat 1 2, (2, 2)⟩ (mkRat 1 2) =
      Except.ok ([0, 3], [Label.UNCHANGED, Label.CHANGED]) ∧
    labels_by_neighborhood
        ⟨[mkRat 1 10, mkRat 2 10, mkRat 8 10, mkRat 9 10], mkRat 1 2, (2, 2)⟩ 1 =
      Except.ok ([0, 1, 2, 3],
        [Label.UNCHANGED, Label.UNCHANGED, Label.CHANGED, Label.CHANGED]) ∧
    (([0, 3] : List ℕ).length = ([Label.UNCHANGED, Label.CHANGED] : List Label).length ∧
      ([0, 3] : List ℕ).Nodup ∧
      ([0, 1, 2, 3] : List ℕ).length =
        ([Label.UNCHANGED, Label.UNCHANGED, Label.CHANGED, Label.CHANGED] : List Label).length ∧
      ([0, 1, 2, 3] : List ℕ).Nodup) :=
  ⟨rfl, rfl,
    selection_result_invariants
      ⟨[mkRat 1 10, mkRat 2 10, mkRat 8 10, mkRat 9 10], mkRat 1 2, (2, 2)⟩ (mkRat 1 2) 1
      [0, 3] [Label.UNCHANGED, Label.CHANGED] [0, 1, 2, 3]
      [Label.UNCHANGED, Label.UNCHANGED, Label.CHANGED, Label.CHANGED] rfl rfl⟩

/-! ### Claim C2 infrastructure: the selection loop against the spec pipeline -/

theorem dedup_length_one_iff_all_eq {α : Type} [DecidableEq α] {w : List α} {v : α}
    (hv : v ∈ w) :
    w.dedup.length = 1 ↔ ∀ x ∈ w, x = v := by
  constructor
  · intro h
    obtain ⟨a, ha⟩ := List.length_eq_one.mp h
    intro x hx
    have hxa : x = a := by
      have hm := List.mem_dedup.mpr hx
      rw [ha] at hm
      simpa using hm
    have hva : v = a := by
      have hm := List.mem_dedup.mpr hv
      rw [ha] at hm
      simpa using hm
    rw [hxa, hva]
  · intro h
    have h1 : ∀ x ∈ w.dedup, x = v := fun x hx => h x (List.mem_dedup.mp hx)
    have h2 : v ∈ w.dedup := List.mem_dedup.mpr hv
    have h3 := List.nodup_dedup w
    rcases hd : w.dedup with - | ⟨a, rest⟩
    · rw [hd] at h2
      simp at h2
    · rcases rest with - | ⟨b, rest2⟩
      · rfl
      · exfalso
        have ha : a = v := h1 a (by rw [hd]; exact List.mem_cons_self _ _)
        have hb : b = v := h1 b (by
          rw [hd]
          exact List.mem_cons_of_mem _ (List.mem_cons_self _ _))
        rw [hd, List.nodup_cons] at h3
        exact h3.1 (by rw [ha, hb]; exact List.mem_cons_self _ _)

theorem windowList_congr {α : Type} {H W radius r c : ℕ} {p q : ℕ → ℕ → α}
    (h : ∀ i j, i < H → j < W → p i j = q i j) :
    windowList H W p radius r c = windowList H W q radius r c := by
  unfold windowList
  refine List.flatMap_congr fun i hi => ?_
  rw [List.mem_range'] at hi
  obtain ⟨a, ha, rfl⟩ := hi
  refine List.map_congr_left fun j hj => ?_
  rw [List.mem_range'] at hj
  obtain ⟨b, hb, rfl⟩ := hj
  exact h _ _ (by omega) (by omega)

theorem spatial_correction_congr {α : Type} [DecidableEq α] {H W radius : ℕ}
    {p q : ℕ → ℕ → α} (h : ∀ i j, i < H → j < W → p i j = q i j)
    {r c : ℕ} (hr : r < H) (hc : c < W) :
    spatial_correction H W p radius r c = spatial_correction H W q radius r c := by
  show correct_cell (windowList H W p radius r c) (p r c) =
    correct_cell (windowList H W q radius r c) (q r c)
  rw [windowList_congr h, h r c hr hc]

theorem filterMap_if {β γ : Type} (l : List β) (p : β → Prop) [DecidablePred p] (f : β → γ) :
    (l.filterMap fun b => if p b then some (f b) else none) =
      (l.filter fun b => decide (p b)).map f := by
  induction l with
  | nil => rfl
  | cons a l ih =>
    rw [List.filterMap_cons, List.filter_cons]
    by_cases h : p a <;> simp [h, ih]

theorem filter_scan_map {γ : Type} (Hn Wn : ℕ) (q : ℕ × ℕ → Bool) (f : ℕ × ℕ → γ) :
    ((((List.range Hn).flatMap fun r => (List.range Wn).map fun c => (r, c)).filter q).map f) =
      (List.range Hn).flatMap fun r =>
        ((List.range Wn).filter fun c => q (r, c)).map fun c => f (r, c) := by
  rw [List.filter_flatMap, List.map_flatMap]
  refine List.flatMap_congr fun r hr => ?_
  rw [List.filter_map, List.map_map]
  rfl

theorem scan_select_eq (Hn Wn rt : ℕ) (hrt : 1 ≤ rt) (pg qg : ℕ → ℕ → Label)
    (hpq : ∀ i j, i < Hn → j < Wn → pg i j = qg i j) {γ : Type} (g : ℕ → ℕ → Label → γ) :
    ((List.range Hn).flatMap fun row =>
        (List.range Wn).filterMap fun col =>
          if (windowList Hn Wn pg rt row col).dedup.length = 1 then
            some (g row col (pg row col))
          else none) =
      ((((List.range Hn).flatMap fun r => (List.range Wn).map fun c => (r, c)).filter fun rc =>
          (windowList Hn Wn qg rt rc.1 rc.2).all fun x => decide (x = qg rc.1 rc.2)).map
        fun rc => g rc.1 rc.2 (qg rc.1 rc.2)) := by
  rw [filter_scan_map]
  refine List.flatMap_congr fun row hrow => ?_
  rw [List.mem_range] at hrow
  rw [filterMap_if (List.range Wn)
    (fun col => (windowList Hn Wn pg rt row col).dedup.length = 1)
    (fun col => g row col (pg row col))]
  have hfil : ((List.range Wn).filter fun col =>
        decide ((windowList Hn Wn pg rt row col).dedup.length = 1)) =
      ((List.range Wn).filter fun col =>
        (windowList Hn Wn qg rt row col).all fun x => decide (x = qg row col)) := by
    refine List.filter_congr fun col hcol => ?_
    rw [List.mem_range] at hcol
    have hwin : windowList Hn Wn pg rt row col = windowList Hn Wn qg rt row col :=
      windowList_congr hpq
    have hmem : qg row col ∈ windowList Hn Wn qg rt row col :=
      self_mem_windowList Hn Wn rt row col qg hrow hcol hrt
    rw [hwin, Bool.eq_iff_iff, decide_eq_true_eq, List.all_eq_true]
    simp only [decide_eq_true_eq]
    exact dedup_length_one_iff_all_eq hmem
  rw [hfil]
  refine List.map_congr_left fun col hcol => ?_
  obtain ⟨hcolr, -⟩ := List.mem_filter.mp hcol
  rw [List.mem_range] at hcolr
  rw [hpq row col hrow hcolr]

/-- C2 (amended): for every well-formed record (flat length = H·W) and every
radius ≥ 1, `labels_by_neighborhood` equals the spec §4.4 composition with the
single amendment the code forces: the smoothing step applies SpatialCorrector
at its DEFAULT radius 3 (line 188 does not forward `radius`), while the
unanimity windows use the given radius.  Each selected pixel carries its
corrected (post-smoothing) label, and the returned indices are in row-major
scan order (strictly increasing flat indices). -/
theorem labels_by_neighborhood_matches_spec (pseudo : PseudoRecord) (radius : ℤ)
    (hrad : 1 ≤ radius)
    (hlen : pseudo.distances.length = pseudo.shape.1 * pseudo.shape.2) :
    labels_by_neighborhood pseudo radius =
      Except.ok (selectByNeighborhood_spec pseudo radius.toNat) ∧
    (selectByNeighborhood_spec pseudo radius.toNat).1.Pairwise (· < ·) := by
  set W := pseudo.shape.2 with hW
  set H := pseudo.shape.1 with hH
  set grid1 : ℕ → ℕ → Label := fun r c =>
    if pseudo.threshold < pseudo.distances.getD (r * W + c) 0 then Label.CHANGED
    else Label.UNCHANGED with hg1
  set grid2 : ℕ → ℕ → Label := fun r c =>
    (pseudo_labels_map pseudo.distances pseudo.threshold).getD (r * W + c) Label.UNCHANGED
    with hg2
  have hgrid : ∀ i j, i < H → j < W → grid1 i j = grid2 i j := by
    intro i j hi hj
    have hidx : i * W + j < pseudo.distances.length := by
      rw [hlen]
      have h1 : i * W + j < (i + 1) * W := by
        rw [Nat.succ_mul]
        omega
      have h2 : (i + 1) * W ≤ H * W := Nat.mul_le_mul_right _ hi
      omega
    show (if pseudo.threshold < pseudo.distances.getD (i * W + j) 0
        then Label.CHANGED else Label.UNCHANGED) =
      (pseudo_labels_map pseudo.distances pseudo.threshold).getD (i * W + j) Label.UNCHANGED
    unfold pseudo_labels_map
    rw [List.getD_eq_getElem?_getD, List.getD_eq_getElem?_getD, List.getElem?_map,
      List.getElem?_eq_getElem hidx]
    rfl
  have hcorr : ∀ i j, i < H → j < W →
      spatial_correction H W grid1 3 i j = spatial_correction H W grid2 3 i j :=
    fun i j hi hj => spatial_correction_congr hgrid hi hj
  have hpairs := scan_select_eq H W radius.toNat (by omega)
    (spatial_correction H W grid1 3) (spatial_correction H W grid2 3) hcorr
    (fun r c v => (r * W + c, v))
  have h1 : labels_by_neighborhood pseudo radius =
      Except.ok (selectByNeighborhood_spec pseudo radius.toNat) := by
    rw [labels_by_neighborhood, if_neg (by omega)]
    congr 1
    have hNP : neighborhoodPairs pseudo radius = _ := hpairs
    rw [hNP, List.map_map, List.map_map]
    rfl
  refine ⟨h1, ?_⟩
  have h2 : labels_by_neighborhood pseudo radius =
      Except.ok ((neighborhoodPairs pseudo radius).map Prod.fst,
        (neighborhoodPairs pseudo radius).map Prod.snd) := by
    rw [labels_by_neighborhood, if_neg (by omega)]
  rw [h1] at h2
  injection h2 with h3
  rw [h3]
  exact neighborhoodPairs_fst_pairwise pseudo radius

/-- Witness for C2 (amended) at a concrete record and radius. -/
theorem labels_by_neighborhood_matches_spec_witness :
    (1 : ℤ) ≤ 3 ∧
    ([mkRat 1 10, mkRat 1 10, mkRat 1 10, mkRat 1 10, mkRat 9 10, mkRat 1 10,
      mkRat 1 10, mkRat 1 10, mkRat 1 10] : List ℚ).length = 3 * 3 ∧
    (labels_by_neighborhood
        ⟨[mkRat 1 10, mkRat 1 10, mkRat 1 10, mkRat 1 10, mkRat 9 10, mkRat 1 10,
          mkRat 1 10, mkRat 1 10, mkRat 1 10], mkRat 1 2, (3, 3)⟩ 3 =
      Except.ok (selectByNeighborhood_spec
        ⟨[mkRat 1 10, mkRat 1 10, mkRat 1 10, mkRat 1 10, mkRat 9 10, mkRat 1 10,
          mkRat 1 10, mkRat 1 10, mkRat 1 10], mkRat 1 2, (3, 3)⟩ (3 : ℤ).toNat) ∧
     (selectByNeighborhood_spec
        ⟨[mkRat 1 10, mkRat 1 10, mkRat 1 10, mkRat 1 10, mkRat 9 10, mkRat 1 10,
          mkRat 1 10, mkRat 1 10, mkRat 1 10], mkRat 1 2, (3, 3)⟩
        (3 : ℤ).toNat).1.Pairwise (· < ·)) :=
  ⟨by decide, by decide,
    labels_by_neighborhood_matches_spec
      ⟨[mkRat 1 10, mkRat 1 10, mkRat 1 10, mkRat 1 10, mkRat 9 10, mkRat 1 10,
        mkRat 1 10, mkRat 1 10, mkRat 1 10], mkRat 1 2, (3, 3)⟩ 3
      (by decide) (by decide)⟩

/-- C2 (counterexample): the claim as stated — smoothing with the GIVEN
radius — fails at radius 1.  For a 3×3 record whose middle pixel alone is
CHANGED, the claim's composition smooths with radius 1 (the identity, §C9)
and returns the CHANGED label at flat index 4, but the code smooths at the
default radius 3 first (line 188 drops the radius argument), flipping the
center to UNCHANGED, and returns UNCHANGED labels everywhere. -/
theorem labels_by_neighborhood_claim_counterexample :
    labels_by_neighborhood
        ⟨[mkRat 1 10, mkRat 1 10, mkRat 1 10, mkRat 1 10, mkRat 9 10, mkRat 1 10,
          mkRat 1 10, mkRat 1 10, mkRat 1 10], mkRat 1 2, (3, 3)⟩ 1 =
      Except.ok ([0, 1, 2, 3, 4, 5, 6, 7, 8],
        [Label.UNCHANGED, Label.UNCHANGED, Label.UNCHANGED, Label.UNCHANGED, Label.UNCHANGED,
         Label.UNCHANGED, Label.UNCHANGED, Label.UNCHANGED, Label.UNCHANGED]) ∧
    selectByNeighborhood_claim
        ⟨[mkRat 1 10, mkRat 1 10, mkRat 1 10, mkRat 1 10, mkRat 9 10, mkRat 1 10,
          mkRat 1 10, mkRat 1 10, mkRat 1 10], mkRat 1 2, (3, 3)⟩ 1 =
      ([0, 1, 2, 3, 4, 5, 6, 7, 8],
       [Label.UNCHANGED, Label.UNCHANGED, Label.UNCHANGED, Label.UNCHANGED, Label.CHANGED,
        Label.UNCHANGED, Label.UNCHANGED, Label.UNCHANGED, Label.UNCHANGED]) ∧
    labels_by_neighborhood
        ⟨[mkRat 1 10, mkRat 1 10, mkRat 1 10, mkRat 1 10, mkRat 9 10, mkRat 1 10,
          mkRat 1 10, mkRat 1 10, mkRat 1 10], mkRat 1 2, (3, 3)⟩ 1 ≠
      Except.ok (selectByNeighborhood_claim
        ⟨[mkRat 1 10, mkRat 1 10, mkRat 1 10, mkRat 1 10, mkRat 9 10, mkRat 1 10,
          mkRat 1 10, mkRat 1 10, mkRat 1 10], mkRat 1 2, (3, 3)⟩ 1) := by
  refine ⟨rfl, rfl, ?_⟩
  intro h
  rw [show labels_by_neighborhood
        ⟨[mkRat 1 10, mkRat 1 10, mkRat 1 10, mkRat 1 10, mkRat 9 10, mkRat 1 10,
          mkRat 1 10, mkRat 1 10, mkRat 1 10], mkRat 1 2, (3, 3)⟩ 1 =
      Except.ok (([0, 1, 2, 3, 4, 5, 6, 7, 8] : List ℕ),
        ([Label.UNCHANGED, Label.UNCHANGED, Label.UNCHANGED, Label.UNCHANGED, Label.UNCHANGED,
          Label.UNCHANGED, Label.UNCHANGED, Label.UNCHANGED, Label.UNCHANGED] : List Label))
      from rfl,
    show selectByNeighborhood_claim
        ⟨[mkRat 1 10, mkRat 1 10, mkRat 1 10, mkRat 1 10, mkRat 9 10, mkRat 1 10,
          mkRat 1 10, mkRat 1 10, mkRat 1 10], mkRat 1 2, (3, 3)⟩ 1 =
      (([0, 1, 2, 3, 4, 5, 6, 7, 8] : List ℕ),
       ([Label.UNCHANGED, Label.UNCHANGED, Label.UNCHANGED, Label.UNCHANGED, Label.CHANGED,
         Label.UNCHANGED, Label.UNCHANGED, Label.UNCHANGED, Label.UNCHANGED] : List Label))
      from rfl] at h
  simp at h
